import Mathlib

/-!
Verification of the salesforce-opportunities-reporter core against its
specification.  The Python modules src/sf_client.py and src/opportunities.py
are shallowly embedded below: pure functions become Lean functions, the
remote query layer becomes an oracle parameter together with an explicit
trace of issued queries, and the retry loop becomes a structural recursion
over the attempt budget.  Machine strings are embedded as List Char with
Python string comparison embedded as lexicographic comparison on code
points.
-/

namespace SFReport

/-! ### Retry layer: sf_client.MAX_RETRIES / RETRY_BACKOFF / _with_retry -/

def MAX_RETRIES : Nat := 3

def RETRY_BACKOFF : Nat := 2

/-- Outcome of one invocation of the wrapped operation func(sf): a normal
result, a SalesforceExpiredSession, or any other (transient) exception. -/
inductive Outcome (α ε : Type) where
  | ok (a : α)
  | expired
  | err (e : ε)

/-- Observable result of _with_retry: the returned value or the raised
exception (raise last_exc raises None when last_exc was never set, modelled
as Except.error none), together with the list of time.sleep durations in
seconds and the number of _reconnect calls. -/
structure RetryResult (α ε : Type) where
  result : Except (Option ε) α
  sleeps : List Nat
  reconnects : Nat

/-- The body of the loop for attempt in range(MAX_RETRIES) of _with_retry.
remaining is the number of loop iterations left; attempt is the Python loop
index, so callers keep remaining + attempt = MAX_RETRIES. behavior n is the
outcome of the invocation of func performed in iteration n. -/
def retryLoop (behavior : Nat → Outcome α ε) :
    Nat → Nat → Option ε → List Nat → Nat → RetryResult α ε
  | 0, _, lastExc, sleeps, recon => ⟨.error lastExc, sleeps, recon⟩
  | remaining + 1, attempt, lastExc, sleeps, recon =>
    match behavior attempt with
    | .ok a => ⟨.ok a, sleeps, recon⟩
    | .expired => retryLoop behavior remaining (attempt + 1) lastExc sleeps (recon + 1)
    | .err e =>
      retryLoop behavior remaining (attempt + 1) (some e)
        (if attempt < MAX_RETRIES - 1
         then sleeps ++ [RETRY_BACKOFF * 2 ^ attempt] else sleeps) recon

/-- sf_client._with_retry, as a function of the outcome sequence of the
wrapped operation. -/
def withRetry (behavior : Nat → Outcome α ε) : RetryResult α ε :=
  retryLoop behavior MAX_RETRIES 0 none [] 0

/-- Claim C2: an operation that raises a transient error on every attempt is
attempted exactly MAX_RETRIES = 3 times, with exactly two sleeps of 2 then 4
seconds between attempts, and the last error is raised; an operation that
fails transiently twice and succeeds on the third attempt returns its result
after exactly those two sleeps and raises nothing. -/
theorem withRetry_transient_policy (behavior : Nat → Outcome α ε) :
    (∀ e0 e1 e2, behavior 0 = .err e0 → behavior 1 = .err e1 →
      behavior 2 = .err e2 →
      withRetry behavior = ⟨.error (some e2), [2, 4], 0⟩) ∧
    (∀ e0 e1 a, behavior 0 = .err e0 → behavior 1 = .err e1 →
      behavior 2 = .ok a →
      withRetry behavior = ⟨.ok a, [2, 4], 0⟩) := by
  constructor
  · intro e0 e1 e2 h0 h1 h2
    simp [withRetry, MAX_RETRIES, retryLoop, h0, h1, h2, RETRY_BACKOFF]
  · intro e0 e1 a h0 h1 h2
    simp [withRetry, MAX_RETRIES, retryLoop, h0, h1, h2, RETRY_BACKOFF]

/-- Witness for C2 at two concrete behaviors. -/
theorem withRetry_transient_policy_witness :
    withRetry (fun n => (Outcome.err n : Outcome Nat Nat)) =
      ⟨.error (some 2), [2, 4], 0⟩ ∧
    withRetry (fun n => if n = 2 then (Outcome.ok 7 : Outcome Nat Nat)
      else Outcome.err n) = ⟨.ok 7, [2, 4], 0⟩ :=
  ⟨(withRetry_transient_policy _).1 0 1 2 rfl rfl rfl,
   (withRetry_transient_policy _).2 0 1 7 rfl rfl rfl⟩

/-- Counterexample to claim C3: session-expiry recovery is NOT independent of
the transient-retry budget.  With a session expiry on the first attempt and
transient errors afterwards, only two transient attempts are performed and
only one sleep (of 4 seconds, the backoff of global attempt index 1) occurs,
because the expiry consumed attempt 0; and when every attempt raises a
session expiry the wrapper gives up after 3 reconnects and executes raise
last_exc with last_exc still None. -/
theorem withRetry_expiry_shares_budget :
    withRetry (fun n => if n = 0 then Outcome.expired
      else (Outcome.err n : Outcome Nat Nat)) =
      ⟨.error (some 2), [4], 1⟩ ∧
    withRetry (fun _ => (Outcome.expired : Outcome Nat Nat)) =
      ⟨.error none, [], 3⟩ := by
  constructor <;> rfl

/-- Claim C3 as amended: on a session-expired failure the client reconnects
and proceeds to the next attempt of the SAME 3-attempt loop (the
re-authentication retry consumes one attempt of the shared budget and adds
no sleep); a caught session-expired error is itself never re-raised, so an
expiry followed by a successful attempt returns the result with one
reconnect and no sleep; an expiry followed by two transient failures leaves
only those two transient attempts, with the single sleep of 4 seconds
dictated by the global attempt index; and three consecutive expiries exhaust
the budget and raise with no recorded error. -/
theorem withRetry_expiry_consumes_attempt (behavior : Nat → Outcome α ε) :
    (∀ a, behavior 0 = .expired → behavior 1 = .ok a →
      withRetry behavior = ⟨.ok a, [], 1⟩) ∧
    (∀ e1 e2, behavior 0 = .expired → behavior 1 = .err e1 →
      behavior 2 = .err e2 →
      withRetry behavior = ⟨.error (some e2), [4], 1⟩) ∧
    ((∀ n, n < 3 → behavior n = .expired) →
      withRetry behavior = ⟨.error none, [], 3⟩) := by
  refine ⟨?_, ?_, ?_⟩
  · intro a h0 h1
    simp [withRetry, MAX_RETRIES, retryLoop, h0, h1]
  · intro e1 e2 h0 h1 h2
    simp [withRetry, MAX_RETRIES, retryLoop, h0, h1, h2, RETRY_BACKOFF]
  · intro h
    simp [withRetry, MAX_RETRIES, retryLoop,
      h 0 (by decide), h 1 (by decide), h 2 (by decide)]

/-- Witness for the amended C3 at concrete behaviors. -/
theorem withRetry_expiry_consumes_attempt_witness :
    withRetry (fun n => if n = 0 then Outcome.expired
      else (Outcome.ok 5 : Outcome Nat Nat)) = ⟨.ok 5, [], 1⟩ ∧
    withRetry (fun n => if n = 0 then Outcome.expired
      else (Outcome.err (10 * n) : Outcome Nat Nat)) =
      ⟨.error (some 20), [4], 1⟩ ∧
    withRetry (fun _ => (Outcome.expired : Outcome Nat Nat)) =
      ⟨.error none, [], 3⟩ :=
  ⟨(withRetry_expiry_consumes_attempt _).1 5 rfl rfl,
   (withRetry_expiry_consumes_attempt _).2.1 10 20 rfl rfl rfl,
   (withRetry_expiry_consumes_attempt _).2.2 (fun _ _ => rfl)⟩

/-! ### ID batching: opportunities.BATCH_SIZE / _batch_ids / _query_batched -/

def BATCH_SIZE : Nat := 200

/-- Structural helper for batchIds; the fuel argument bounds the number of
produced batches and is immaterial as long as it is at least the input
length (batchIdsGo_fuel). -/
def batchIdsGo : Nat → List α → List (List α)
  | _, [] => []
  | fuel + 1, a :: as =>
    (a :: as).take BATCH_SIZE :: batchIdsGo fuel ((a :: as).drop BATCH_SIZE)
  | 0, a :: as => [a :: as]

/-- opportunities._batch_ids: consecutive slices ids[i : i + BATCH_SIZE]
for i = 0, BATCH_SIZE, 2 * BATCH_SIZE, ... -/
def batchIds (l : List α) : List (List α) :=
  batchIdsGo l.length l

theorem batchIdsGo_fuel :
    ∀ (f1 f2 : Nat) (l : List α), l.length ≤ f1 → l.length ≤ f2 →
      batchIdsGo f1 l = batchIdsGo f2 l := by
  intro f1
  induction f1 with
  | zero =>
    intro f2 l h1 _
    have hl : l = [] := by
      cases l with
      | nil => rfl
      | cons a as => simp at h1
    subst hl
    cases f2 <;> rfl
  | succ f1 ih =>
    intro f2 l h1 h2
    cases l with
    | nil => cases f2 <;> rfl
    | cons a as =>
      cases f2 with
      | zero => simp at h2
      | succ f2 =>
        simp only [batchIdsGo]
        congr 1
        apply ih
        · simp only [List.length_drop, List.length_cons, BATCH_SIZE]
          simp only [List.length_cons] at h1
          omega
        · simp only [List.length_drop, List.length_cons, BATCH_SIZE]
          simp only [List.length_cons] at h2
          omega

theorem batchIds_nil : batchIds ([] : List α) = [] := rfl

theorem batchIds_cons (a : α) (as : List α) :
    batchIds (a :: as) =
      (a :: as).take BATCH_SIZE :: batchIds ((a :: as).drop BATCH_SIZE) := by
  show batchIdsGo (as.length + 1) (a :: as) = _
  simp only [batchIdsGo]
  congr 1
  apply batchIdsGo_fuel
  · simp only [List.length_drop, List.length_cons, BATCH_SIZE]
    omega
  · exact le_refl _

/-- opportunities._query_batched: one query per batch, results concatenated
in batch order; the second component is the trace of issued batches. -/
def queryBatched (q : List α → List ρ) (ids : List α) :
    List ρ × List (List α) :=
  (((batchIds ids).map q).flatten, batchIds ids)

theorem flatten_batchIds_aux :
    ∀ (n : Nat) (l : List α), l.length ≤ n → (batchIds l).flatten = l := by
  intro n
  induction n with
  | zero =>
    intro l h
    have hl : l = [] := by
      cases l with
      | nil => rfl
      | cons a as => simp at h
    subst hl
    rfl
  | succ n ih =>
    intro l h
    cases l with
    | nil => rfl
    | cons a as =>
      rw [batchIds_cons]
      simp only [List.flatten_cons]
      rw [ih ((a :: as).drop BATCH_SIZE) (by
        simp only [List.length_drop, List.length_cons, BATCH_SIZE]
        simp only [List.length_cons] at h
        omega)]
      exact List.take_append_drop _ _

theorem flatten_batchIds (l : List α) : (batchIds l).flatten = l :=
  flatten_batchIds_aux l.length l (le_refl _)

theorem batchIds_batch_size_aux :
    ∀ (n : Nat) (l : List α), l.length ≤ n →
      ∀ b ∈ batchIds l, b.length ≤ BATCH_SIZE ∧ b ≠ [] := by
  intro n
  induction n with
  | zero =>
    intro l h
    have hl : l = [] := by
      cases l with
      | nil => rfl
      | cons a as => simp at h
    subst hl
    simp [batchIds_nil]
  | succ n ih =>
    intro l h
    cases l with
    | nil => simp [batchIds_nil]
    | cons a as =>
      rw [batchIds_cons]
      intro b hb
      rcases List.mem_cons.1 hb with h1 | h1
      · subst h1
        refine ⟨by simp, by simp [BATCH_SIZE]⟩
      · exact ih ((a :: as).drop BATCH_SIZE) (by
          simp only [List.length_drop, List.length_cons, BATCH_SIZE]
          simp only [List.length_cons] at h
          omega) b h1

theorem batchIds_batch_size (l : List α) :
    ∀ b ∈ batchIds l, b.length ≤ BATCH_SIZE ∧ b ≠ [] :=
  batchIds_batch_size_aux l.length l (le_refl _)

theorem filter_or_perm (table : List ρ) (p q : ρ → Bool)
    (h : ∀ r, ¬(p r = true ∧ q r = true)) :
    (table.filter (fun r => p r || q r)).Perm
      (table.filter p ++ table.filter q) := by
  induction table with
  | nil => simp
  | cons r t ih =>
    cases hp : p r with
    | true =>
      have hq : q r = false := by
        cases hq : q r with
        | true => exact absurd ⟨hp, hq⟩ (h r)
        | false => rfl
      simpa [List.filter_cons, hp, hq] using ih.cons r
    | false =>
      cases hq : q r with
      | true =>
        simp only [List.filter_cons, hp, hq, Bool.false_or]
        exact (ih.cons r).trans List.perm_middle.symm
      | false => simpa [List.filter_cons, hp, hq] using ih

theorem flatten_filter_perm [DecidableEq α] (table : List ρ) (idOf : ρ → α)
    (bs : List (List α)) (h : bs.flatten.Nodup) :
    ((bs.map (fun b => table.filter (fun r => idOf r ∈ b))).flatten).Perm
      (table.filter (fun r => idOf r ∈ bs.flatten)) := by
  induction bs with
  | nil => simp
  | cons b rest ih =>
    simp only [List.flatten_cons] at h
    obtain ⟨hb, hrest, hdisj⟩ := List.nodup_append.1 h
    have hperm := filter_or_perm table (fun r => decide (idOf r ∈ b))
      (fun r => decide (idOf r ∈ rest.flatten)) (by
        intro r hr
        exact hdisj (by simpa using hr.1) (by simpa using hr.2))
    have h2 : table.filter (fun r => decide (idOf r ∈ b ++ rest.flatten)) =
        table.filter
          (fun r => decide (idOf r ∈ b) || decide (idOf r ∈ rest.flatten)) := by
      apply List.filter_congr
      intro r _
      simp [List.mem_append]
    simp only [List.map_cons, List.flatten_cons]
    rw [h2]
    exact ((ih hrest).append_left _).trans hperm.symm

/-- Claim C4: the ID-batched query splits the identifier list into
consecutive batches of at most 200 identifiers whose concatenation is the
input, issues one underlying query per batch (450 identifiers give exactly 3
queries over 200, 200 and 50 identifiers), and returns the concatenation of
the per-batch results, which is a permutation (equal multiset) of the result
of one hypothetical unbatched query over all the identifiers. -/
theorem queryBatched_correct [DecidableEq α] (ids : List α) (table : List ρ)
    (idOf : ρ → α) (hnd : ids.Nodup) :
    (queryBatched (fun b => table.filter (fun r => idOf r ∈ b)) ids).2 =
      batchIds ids ∧
    (batchIds ids).flatten = ids ∧
    (∀ b ∈ batchIds ids, b.length ≤ BATCH_SIZE ∧ b ≠ []) ∧
    ((queryBatched (fun b => table.filter (fun r => idOf r ∈ b)) ids).1).Perm
      (table.filter (fun r => idOf r ∈ ids)) ∧
    (ids.length = 450 → (batchIds ids).map List.length = [200, 200, 50]) := by
  refine ⟨rfl, flatten_batchIds ids, batchIds_batch_size ids, ?_, ?_⟩
  · have h := flatten_filter_perm table idOf (batchIds ids)
      (by rw [flatten_batchIds]; exact hnd)
    rw [flatten_batchIds] at h
    exact h
  · intro h450
    have h1 : ids ≠ [] := by
      intro h
      rw [h] at h450
      simp at h450
    obtain ⟨a, as, rfl⟩ := List.exists_cons_of_ne_nil h1
    simp only [List.length_cons] at h450
    rw [batchIds_cons]
    have hlen2 : ((a :: as).drop BATCH_SIZE).length = 250 := by
      simp only [List.length_drop, List.length_cons, BATCH_SIZE]
      omega
    obtain ⟨b, bs, hb⟩ := List.exists_cons_of_ne_nil
      (l := (a :: as).drop BATCH_SIZE) (by
        intro h
        rw [h] at hlen2
        simp at hlen2)
    have hlb : bs.length + 1 = 250 := by
      have h0 : (b :: bs).length = 250 := hb ▸ hlen2
      simpa using h0
    rw [hb, batchIds_cons]
    have hlen3 : ((b :: bs).drop BATCH_SIZE).length = 50 := by
      simp only [List.length_drop, List.length_cons, BATCH_SIZE]
      omega
    obtain ⟨c, cs, hc⟩ := List.exists_cons_of_ne_nil
      (l := (b :: bs).drop BATCH_SIZE) (by
        intro h
        rw [h] at hlen3
        simp at hlen3)
    have hlc : cs.length + 1 = 50 := by
      have h0 : (c :: cs).length = 50 := hc ▸ hlen3
      simpa using h0
    rw [hc, batchIds_cons]
    have hlen4 : ((c :: cs).drop BATCH_SIZE).length = 0 := by
      simp only [List.length_drop, List.length_cons, BATCH_SIZE]
      omega
    have h4 : (c :: cs).drop BATCH_SIZE = [] := List.length_eq_zero.1 hlen4
    rw [h4]
    have hl1 : ((a :: as).take BATCH_SIZE).length = 200 := by
      simp only [List.length_take, List.length_cons, BATCH_SIZE]
      omega
    have hl2 : ((b :: bs).take BATCH_SIZE).length = 200 := by
      simp only [List.length_take, List.length_cons, BATCH_SIZE]
      omega
    have hl3 : ((c :: cs).take BATCH_SIZE).length = 50 := by
      simp only [List.length_take, List.length_cons, BATCH_SIZE]
      omega
    simp [batchIds_nil, hl1, hl2, hl3]

/-- Witness for C4 at a concrete identifier list of length 450. -/
theorem queryBatched_correct_witness :
    ((List.range 450).Nodup ∧ (List.range 450).length = 450) ∧
    ((queryBatched (fun b => ([450, 3, 700].filter (fun r => r ∈ b))) (List.range 450)).1).Perm
      (([450, 3, 700] : List Nat).filter (fun r => r ∈ List.range 450)) ∧
    (batchIds (List.range 450)).map List.length = [200, 200, 50] := by
  have h := queryBatched_correct (List.range 450) ([450, 3, 700] : List Nat)
    (fun r => r) (List.nodup_range 450)
  exact ⟨⟨List.nodup_range 450, List.length_range 450⟩, h.2.2.2.1,
    h.2.2.2.2 (List.length_range 450)⟩

/-! ### Human-actor classifier: opportunities._get_human_user_ids -/

/-- opportunities.NON_HUMAN_LICENSES. -/
def NON_HUMAN_LICENSES : List (List Char) :=
  ["Salesforce Integration".data,
   "Salesforce API Only System Integrations".data,
   "Identity".data,
   "Automated Process".data]

/-- opportunities.NON_HUMAN_USERNAMES. -/
def NON_HUMAN_USERNAMES : List (List Char) :=
  ["Automated Process".data]

/-- A User record as consumed by _get_human_user_ids.  The field
profileLicenseName models the nested access user["Profile"]["UserLicense"]["Name"]:
the outer Option is presence of a non-null Profile, the inner Option is
presence of a non-null UserLicense; a UserLicense with a missing Name key
yields the empty string via .get("Name", ""), which is just another inner
value. -/
structure SfUser where
  Id : List Char
  Name : List Char
  profileLicenseName : Option (Option (List Char))

/-- The per-user test of the loop body of _get_human_user_ids: true exactly
when the loop reaches human_ids.add(user["Id"]) instead of continue. -/
def isHumanUser (u : SfUser) : Bool :=
  if u.Name ∈ NON_HUMAN_USERNAMES then false
  else
    match u.profileLicenseName with
    | some (some licName) => !(licName ∈ NON_HUMAN_LICENSES)
    | _ => true

/-- opportunities._get_human_user_ids on an already-fetched user list; the
Python set of ids is modelled as the list of ids of passing users, with set
membership as list membership. -/
def getHumanUserIds (users : List SfUser) : List (List Char) :=
  (users.filter isHumanUser).map SfUser.Id

/-- Claim C5: a fetched actor is excluded from the human set if and only if
its display name is in the configured automated-username list or its license
name is in the configured automated-license list (a name hit excludes even
with a human license, a license hit excludes even with a human-looking name,
and any other actor is human); and an id is in the resulting human set
exactly when some fetched user carries it and passes that test. -/
theorem isHumanUser_excluded_iff (users : List SfUser) (u : SfUser) :
    (isHumanUser u = false ↔
      (u.Name ∈ NON_HUMAN_USERNAMES ∨
        ∃ licName, u.profileLicenseName = some (some licName) ∧
          licName ∈ NON_HUMAN_LICENSES)) ∧
    (∀ i, i ∈ getHumanUserIds users ↔
      ∃ v ∈ users, v.Id = i ∧ isHumanUser v = true) := by
  constructor
  · rw [isHumanUser]
    by_cases hn : u.Name ∈ NON_HUMAN_USERNAMES
    · simp [hn]
    · simp only [hn, if_false, false_or]
      match hu : u.profileLicenseName with
      | some (some licName) =>
        constructor
        · intro h
          refine ⟨licName, rfl, ?_⟩
          by_cases hl : licName ∈ NON_HUMAN_LICENSES
          · exact hl
          · simp [hl] at h
        · rintro ⟨l, hl, hmem⟩
          cases hl
          simp [hmem]
      | some none => simp
      | none => simp
  · intro i
    simp only [getHumanUserIds, List.mem_map, List.mem_filter]
    constructor
    · rintro ⟨v, ⟨hv, hh⟩, rfl⟩
      exact ⟨v, hv, rfl, hh⟩
    · rintro ⟨v, hv, rfl, hh⟩
      exact ⟨v, ⟨hv, hh⟩, rfl⟩

/-! ### Timestamp strings

Salesforce datetime strings are embedded as List Char.  Python string
comparison (the operator used on created > last_touch[opp_id] in step 4 of
get_human_touched_opportunities) is lexicographic on code points, embedded
as strLt.  The suffix rewriting of _parse_sf_datetime is embedded as normTs;
for the fixed-width single-offset ISO-8601 forms Salesforce produces,
lexicographic order of the normalized strings coincides with chronological
order of the parsed datetimes, so normalized-lexicographic comparison is the
embedding of chronological comparison. -/

/-- Python string less-than on code points. -/
def strLt : List Char → List Char → Bool
  | _, [] => false
  | [], _ :: _ => true
  | a :: as, b :: bs =>
    if a < b then true else if b < a then false else strLt as bs

theorem strLt_irrefl (l : List Char) : strLt l l = false := by
  induction l with
  | nil => rfl
  | cons a as ih => simp [strLt, ih]

theorem strLt_trans :
    ∀ a b c : List Char, strLt a b = true → strLt b c = true →
      strLt a c = true := by
  intro a
  induction a with
  | nil =>
    intro b c h1 h2
    cases c with
    | nil =>
      cases b with
      | nil => simp [strLt] at h1
      | cons b0 bs => simp [strLt] at h2
    | cons c0 cs => simp [strLt]
  | cons a0 as ih =>
    intro b c h1 h2
    cases b with
    | nil => simp [strLt] at h1
    | cons b0 bs =>
      cases c with
      | nil => simp [strLt] at h2
      | cons c0 cs =>
        simp only [strLt] at h1 h2 ⊢
        rcases lt_trichotomy a0 b0 with hab | hab | hab
        · rcases lt_trichotomy b0 c0 with hbc | hbc | hbc
          · simp [lt_trans hab hbc]
          · subst hbc
            simp [hab]
          · have hnb : ¬b0 < c0 := asymm hbc
            simp [hnb, hbc] at h2
        · subst hab
          simp only [lt_irrefl, if_false] at h1
          rcases lt_trichotomy a0 c0 with hbc | hbc | hbc
          · simp [hbc]
          · subst hbc
            simp only [lt_irrefl, if_false] at h2 ⊢
            exact ih bs cs h1 h2
          · have hnb : ¬a0 < c0 := asymm hbc
            simp [hnb, hbc] at h2
        · have hna : ¬a0 < b0 := asymm hab
          simp [hna, hab] at h1

theorem strLt_eq_of_not_lt :
    ∀ a b : List Char, strLt a b = false → strLt b a = false → a = b := by
  intro a
  induction a with
  | nil =>
    intro b h1 _
    cases b with
    | nil => rfl
    | cons b0 bs => simp [strLt] at h1
  | cons a0 as ih =>
    intro b h1 h2
    cases b with
    | nil => simp [strLt] at h2
    | cons b0 bs =>
      simp only [strLt] at h1 h2
      rcases lt_trichotomy a0 b0 with hab | hab | hab
      · simp [hab] at h1
      · subst hab
        simp only [lt_irrefl, if_false] at h1 h2
        rw [ih bs h1 h2]
      · simp [hab, asymm hab] at h2

theorem strLt_append_eq (p1 : List Char) :
    ∀ p2 t1 t2 : List Char, p1.length = p2.length →
      strLt (p1 ++ t1) (p2 ++ t2) =
        if p1 = p2 then strLt t1 t2 else strLt p1 p2 := by
  induction p1 with
  | nil =>
    intro p2 t1 t2 h
    have : p2 = [] := by
      cases p2 with
      | nil => rfl
      | cons b bs => simp at h
    subst this
    simp
  | cons a as ih =>
    intro p2 t1 t2 h
    cases p2 with
    | nil => simp at h
    | cons b bs =>
      simp only [List.length_cons, Nat.add_right_cancel_iff] at h
      simp only [List.cons_append, strLt]
      rcases lt_trichotomy a b with hab | hab | hab
      · have hne : (a :: as) ≠ (b :: bs) := by
          intro hcon
          cases hcon
          exact lt_irrefl _ hab

        simp [strLt, hab, hne]
      · subst hab
        simp only [lt_irrefl, if_false, List.append_eq]
        rw [ih bs t1 t2 h]
        by_cases has : as = bs
        · subst has
          simp [strLt]
        · have hne : (a :: as) ≠ (a :: bs) := by
            intro hcon
            cases hcon
            exact has rfl
          simp [strLt, has, hne]
      · have hne : (a :: as) ≠ (b :: bs) := by
          intro hcon
          cases hcon
          exact lt_irrefl _ hab
        simp [strLt, hab, asymm hab, hne]

/-- The suffix rewriting of opportunities._parse_sf_datetime: a trailing Z
or a trailing +0000 becomes +00:00; datetime.fromisoformat then parses the
result.  Chronological comparison of two parsed values is lexicographic
comparison of the rewritten strings, since both rewritten forms are
fixed-width digit strings at the single offset +00:00. -/
def normTs (s : List Char) : List Char :=
  if s.drop (s.length - 1) = ['Z'] then
    s.take (s.length - 1) ++ "+00:00".data
  else if s.drop (s.length - 5) = "+0000".data then
    s.take (s.length - 5) ++ "+00:00".data
  else s

/-- A well-formed Salesforce timestamp: a 23-character
YYYY-MM-DDTHH:MM:SS.mmm body followed by either Z or +0000. -/
def WfTs (s : List Char) : Prop :=
  (s.length = 24 ∧ s.drop 23 = ['Z']) ∨
    (s.length = 28 ∧ s.drop 23 = "+0000".data)

instance (s : List Char) : Decidable (WfTs s) := by
  unfold WfTs
  infer_instance

theorem wfTs_split (s : List Char) (h : WfTs s) :
    ∃ p, p.length = 23 ∧
      (s = p ++ ['Z'] ∨ s = p ++ "+0000".data) := by
  refine ⟨s.take 23, ?_, ?_⟩
  · rcases h with ⟨h1, _⟩ | ⟨h1, _⟩ <;> simp [List.length_take, h1]
  · rcases h with ⟨_, h2⟩ | ⟨_, h2⟩
    · exact Or.inl (by rw [← h2]; exact (List.take_append_drop 23 s).symm)
    · exact Or.inr (by rw [← h2]; exact (List.take_append_drop 23 s).symm)

theorem normTs_z (p : List Char) (hp : p.length = 23) :
    normTs (p ++ ['Z']) = p ++ "+00:00".data := by
  have hlen : (p ++ ['Z']).length = 24 := by simp [hp]
  have hdrop : (p ++ ['Z']).drop ((p ++ ['Z']).length - 1) = ['Z'] := by
    rw [hlen]
    show (p ++ ['Z']).drop 23 = ['Z']
    rw [← hp]
    exact List.drop_left p ['Z']
  have htake : (p ++ ['Z']).take ((p ++ ['Z']).length - 1) = p := by
    rw [hlen]
    show (p ++ ['Z']).take 23 = p
    rw [← hp]
    exact List.take_left p ['Z']
  rw [normTs, if_pos hdrop, htake]

theorem normTs_p0 (p : List Char) (hp : p.length = 23) :
    normTs (p ++ "+0000".data) = p ++ "+00:00".data := by
  have hlen : (p ++ "+0000".data).length = 28 := by simp [hp]
  have hdrop23 : (p ++ "+0000".data).drop 23 = "+0000".data := by
    rw [← hp]
    exact List.drop_left p _
  have hnotz : ¬((p ++ "+0000".data).drop ((p ++ "+0000".data).length - 1) =
      ['Z']) := by
    rw [hlen]
    show ¬((p ++ "+0000".data).drop 27 = ['Z'])
    have h27 : (27 : Nat) = 23 + 4 := by decide
    rw [h27, ← List.drop_drop, hdrop23]
    decide
  have hdrop : (p ++ "+0000".data).drop ((p ++ "+0000".data).length - 5) =
      "+0000".data := by
    rw [hlen]
    exact hdrop23
  have htake : (p ++ "+0000".data).take ((p ++ "+0000".data).length - 5) =
      p := by
    rw [hlen]
    show (p ++ "+0000".data).take 23 = p
    rw [← hp]
    exact List.take_left p _
  rw [normTs, if_neg hnotz, if_pos hdrop, htake]

/-- Raw lexicographic comparison agrees with normalized (chronological)
comparison on well-formed timestamps: whenever a raw maximum is taken, it is
also a normalized maximum. -/
theorem normTs_le_of_strLt_false (a b : List Char) (ha : WfTs a) (hb : WfTs b)
    (h : strLt a b = false) : strLt (normTs a) (normTs b) = false := by
  obtain ⟨pa, hpa, hsa⟩ := wfTs_split a ha
  obtain ⟨pb, hpb, hsb⟩ := wfTs_split b hb
  have hna : normTs a = pa ++ "+00:00".data := by
    rcases hsa with h1 | h1 <;> rw [h1]
    · exact normTs_z pa hpa
    · exact normTs_p0 pa hpa
  have hnb : normTs b = pb ++ "+00:00".data := by
    rcases hsb with h1 | h1 <;> rw [h1]
    · exact normTs_z pb hpb
    · exact normTs_p0 pb hpb
  by_cases hpp : pa = pb
  · rw [hna, hnb, hpp]
    exact strLt_irrefl _
  · have hraw : strLt pa pb = false := by
      have hlen : pa.length = pb.length := by rw [hpa, hpb]
      rcases hsa with h1 | h1 <;> rcases hsb with h2 | h2 <;>
        (rw [h1, h2, strLt_append_eq pa _ _ _ hlen, if_neg hpp] at h
         exact h)
    rw [hna, hnb, strLt_append_eq pa _ _ _ (by rw [hpa, hpb]), if_neg hpp]
    exact hraw

/-! ### Touch aggregation: step 4 of get_human_touched_opportunities -/

/-- A Task record as selected by TASKS_SOQL_TEMPLATE. -/
structure SfTask where
  Id : List Char
  WhatId : List Char
  CreatedById : List Char
  CreatedDate : List Char
  deriving DecidableEq

/-- One iteration of the loop for t in tasks of step 4: when the creating
actor is human, increment touch_count[t.WhatId] and update
last_touch[t.WhatId] if absent or raw-string-smaller than t.CreatedDate.
The two dicts are modelled as total functions (touch_count is a
defaultdict(int), last_touch lookup is modelled with Option). -/
def touchStep (human : List Char → Bool)
    (acc : (List Char → Nat) × (List Char → Option (List Char)))
    (t : SfTask) : (List Char → Nat) × (List Char → Option (List Char)) :=
  if human t.CreatedById then
    ((fun x => if x = t.WhatId then acc.1 x + 1 else acc.1 x),
     (fun x => if x = t.WhatId then
        match acc.2 t.WhatId with
        | none => some t.CreatedDate
        | some prev =>
          if strLt prev t.CreatedDate then some t.CreatedDate else some prev
      else acc.2 x))
  else acc

/-- Step 4 of get_human_touched_opportunities: the pair
(touch_count, last_touch) obtained by folding the task list. -/
def aggTouches (tasks : List SfTask) (human : List Char → Bool) :
    (List Char → Nat) × (List Char → Option (List Char)) :=
  tasks.foldl (touchStep human) ((fun _ => 0), (fun _ => none))

/-- The activity records that qualify as touches of a given record: parent
reference equal to the record, creating actor in the human set. -/
def humanTasksFor (tasks : List SfTask) (human : List Char → Bool)
    (oppId : List Char) : List SfTask :=
  tasks.filter (fun t => human t.CreatedById && decide (t.WhatId = oppId))

/-- Running maximum of timestamps under raw string comparison, as performed
by the last_touch updates. -/
def optMaxTs : Option (List Char) → List (List Char) → Option (List Char)
  | o, [] => o
  | none, s :: rest => optMaxTs (some s) rest
  | some prev, s :: rest =>
    optMaxTs (some (if strLt prev s then s else prev)) rest

theorem foldl_touch_count (human : List Char → Bool) (oppId : List Char) :
    ∀ (tasks : List SfTask)
      (acc : (List Char → Nat) × (List Char → Option (List Char))),
      (tasks.foldl (touchStep human) acc).1 oppId =
        acc.1 oppId + (humanTasksFor tasks human oppId).length := by
  intro tasks
  induction tasks with
  | nil => intro acc; simp [humanTasksFor]
  | cons t ts ih =>
    intro acc
    rw [List.foldl_cons, ih]
    cases hh : human t.CreatedById with
    | false => simp [touchStep, hh, humanTasksFor, List.filter_cons]
    | true =>
      by_cases hw : t.WhatId = oppId
      · subst hw
        simp only [humanTasksFor, List.filter_cons, hh, decide_eq_true_eq,
          Bool.true_and]
        simp [touchStep, hh]
        omega
      · have hw2 : ¬(oppId = t.WhatId) := fun h => hw h.symm
        simp [touchStep, hh, hw, hw2, humanTasksFor, List.filter_cons]

theorem foldl_last_touch (human : List Char → Bool) (oppId : List Char) :
    ∀ (tasks : List SfTask)
      (acc : (List Char → Nat) × (List Char → Option (List Char))),
      (tasks.foldl (touchStep human) acc).2 oppId =
        optMaxTs (acc.2 oppId)
          ((humanTasksFor tasks human oppId).map SfTask.CreatedDate) := by
  intro tasks
  induction tasks with
  | nil => intro acc; simp [humanTasksFor, optMaxTs]
  | cons t ts ih =>
    intro acc
    rw [List.foldl_cons, ih]
    cases hh : human t.CreatedById with
    | false => simp [touchStep, hh, humanTasksFor, List.filter_cons]
    | true =>
      by_cases hw : t.WhatId = oppId
      · subst hw
        simp only [humanTasksFor, List.filter_cons, hh, decide_eq_true_eq,
          Bool.true_and, if_pos rfl, List.map_cons]
        cases hacc : acc.2 t.WhatId with
        | none => simp [optMaxTs, touchStep, hh, hacc, humanTasksFor]
        | some prev =>
          by_cases hc : strLt prev t.CreatedDate = true
          · simp [optMaxTs, touchStep, hh, hacc, hc, humanTasksFor]
          · have hc2 : strLt prev t.CreatedDate = false := by
              cases h0 : strLt prev t.CreatedDate
              · rfl
              · exact absurd h0 hc
            simp [optMaxTs, touchStep, hh, hacc, hc2, humanTasksFor]
      · have hw2 : ¬(oppId = t.WhatId) := fun h => hw h.symm
        simp [touchStep, hh, hw, hw2, humanTasksFor, List.filter_cons]

theorem optMaxTs_isSome :
    ∀ (l : List (List Char)) (s : List Char),
      ∃ m, optMaxTs (some s) l = some m := by
  intro l
  induction l with
  | nil => intro s; exact ⟨s, rfl⟩
  | cons u rest ih => intro s; simpa [optMaxTs] using ih _

theorem optMaxTs_spec :
    ∀ (l : List (List Char)) (o : Option (List Char)) (m : List Char),
      optMaxTs o l = some m →
      (m ∈ l ∨ o = some m) ∧ (∀ s ∈ l, strLt m s = false) ∧
        (∀ p, o = some p → strLt m p = false) := by
  intro l
  induction l with
  | nil =>
    intro o m h
    simp only [optMaxTs] at h
    refine ⟨Or.inr h, by simp, ?_⟩
    intro p hp
    rw [hp] at h
    cases h
    exact strLt_irrefl _
  | cons s rest ih =>
    intro o m h
    cases o with
    | none =>
      simp only [optMaxTs] at h
      obtain ⟨hmem, hmax, hstart⟩ := ih (some s) m h
      refine ⟨?_, ?_, ?_⟩
      · rcases hmem with h1 | h1
        · exact Or.inl (List.mem_cons_of_mem _ h1)
        · cases h1
          exact Or.inl (List.mem_cons_self _ _)
      · intro u hu
        rcases List.mem_cons.1 hu with h1 | h1
        · subst h1
          exact hstart _ rfl
        · exact hmax u h1
      · intro p hp
        cases hp
    | some prev =>
      simp only [optMaxTs] at h
      obtain ⟨hmem, hmax, hstart⟩ := ih _ m h
      have hv : strLt m (if strLt prev s then s else prev) = false :=
        hstart _ rfl
      have hms : strLt m s = false := by
        by_cases hps : strLt prev s = true
        · rw [if_pos hps] at hv
          exact hv
        · have hps2 : strLt prev s = false := by
            cases h0 : strLt prev s
            · rfl
            · exact absurd h0 hps
          rw [if_neg hps] at hv
          cases h0 : strLt m s
          · rfl
          · exfalso
            by_cases hsp : strLt s prev = true
            · have := strLt_trans m s prev h0 hsp
              rw [this] at hv
              cases hv
            · have hsp2 : strLt s prev = false := by
                cases h1 : strLt s prev
                · rfl
                · exact absurd h1 hsp
              have := strLt_eq_of_not_lt prev s hps2 hsp2
              rw [← this] at h0
              rw [h0] at hv
              cases hv
      have hmp : strLt m prev = false := by
        by_cases hps : strLt prev s = true
        · rw [if_pos hps] at hv
          cases h0 : strLt m prev
          · rfl
          · exfalso
            have := strLt_trans m prev s h0 hps
            rw [this] at hv
            cases hv
        · have hps2 : strLt prev s = false := by
            cases h0 : strLt prev s
            · rfl
            · exact absurd h0 hps
          rw [if_neg hps] at hv
          exact hv
      refine ⟨?_, ?_, ?_⟩
      · rcases hmem with h1 | h1
        · exact Or.inl (List.mem_cons_of_mem _ h1)
        · rw [Option.some_inj] at h1
          by_cases hps : strLt prev s = true
          · rw [if_pos hps] at h1
            exact Or.inl (h1 ▸ List.mem_cons_self _ _)
          · rw [if_neg hps] at h1
            exact Or.inr (by rw [h1])
      · intro u hu
        rcases List.mem_cons.1 hu with h1 | h1
        · subst h1
          exact hms
        · exact hmax u h1
      · intro p hp
        rw [Option.some_inj] at hp
        subst hp
        exact hmp

/-- Claim C1: for every task list, human-actor predicate and opportunity id,
the aggregated touch count equals the number of tasks whose WhatId is that
opportunity and whose CreatedById is human, and the aggregated last-touch
value is a timestamp of exactly those tasks that is chronologically maximal
among them, chronological comparison being lexicographic comparison after
normalizing the trailing-Z and +0000 forms to the canonical +00:00 form
(hypothesis: the qualifying timestamps are well-formed Salesforce
timestamps); when no task qualifies there is no last-touch value. -/
theorem aggTouches_correct (tasks : List SfTask) (human : List Char → Bool)
    (oppId : List Char)
    (hwf : ∀ t ∈ humanTasksFor tasks human oppId, WfTs t.CreatedDate) :
    (aggTouches tasks human).1 oppId =
      (humanTasksFor tasks human oppId).length ∧
    (humanTasksFor tasks human oppId = [] →
      (aggTouches tasks human).2 oppId = none) ∧
    (humanTasksFor tasks human oppId ≠ [] →
      ∃ m, (aggTouches tasks human).2 oppId = some m) ∧
    (∀ m, (aggTouches tasks human).2 oppId = some m →
      m ∈ (humanTasksFor tasks human oppId).map SfTask.CreatedDate ∧
        ∀ s ∈ (humanTasksFor tasks human oppId).map SfTask.CreatedDate,
          strLt (normTs m) (normTs s) = false) := by
  have hcount := foldl_touch_count human oppId tasks ((fun _ => 0), (fun _ => none))
  have hlast := foldl_last_touch human oppId tasks ((fun _ => 0), (fun _ => none))
  refine ⟨by simpa using hcount, ?_, ?_, ?_⟩
  · intro hnil
    rw [aggTouches, hlast, hnil]
    rfl
  · intro hne
    rw [aggTouches, hlast]
    obtain ⟨t0, ts0, h0⟩ := List.exists_cons_of_ne_nil hne
    rw [h0, List.map_cons]
    exact optMaxTs_isSome _ _
  · intro m hm
    rw [aggTouches, hlast] at hm
    obtain ⟨hmem, hmax, _⟩ := optMaxTs_spec _ _ _ hm
    have hmem2 : m ∈ (humanTasksFor tasks human oppId).map SfTask.CreatedDate := by
      rcases hmem with h1 | h1
      · exact h1
      · cases h1
    have hwfm : WfTs m := by
      obtain ⟨t, ht, hteq⟩ := List.mem_map.1 hmem2
      exact hteq ▸ hwf t ht
    refine ⟨hmem2, ?_⟩
    intro s hs
    have hwfs : WfTs s := by
      obtain ⟨t, ht, hteq⟩ := List.mem_map.1 hs
      exact hteq ▸ hwf t ht
    exact normTs_le_of_strLt_false m s hwfm hwfs (hmax s hs)

/-- Concrete data for witnesses: one opportunity touched by tasks of a human
actor 005A (twice) and of another actor 005B. -/
def demoTasks : List SfTask :=
  [⟨"00T1".data, "006X".data, "005A".data, "2025-01-02T03:04:05.000Z".data⟩,
   ⟨"00T2".data, "006X".data, "005B".data,
     "2025-04-02T03:04:05.000+0000".data⟩,
   ⟨"00T3".data, "006X".data, "005A".data,
     "2025-03-02T03:04:05.000+0000".data⟩]

def demoHuman : List Char → Bool := fun cid => decide (cid = "005A".data)

/-- Witness for C1 at the concrete task list. -/
theorem aggTouches_correct_witness :
    (aggTouches demoTasks demoHuman).1 ("006X".data) =
      (humanTasksFor demoTasks demoHuman ("006X".data)).length ∧
    (∃ m, (aggTouches demoTasks demoHuman).2 ("006X".data) = some m) := by
  have h := aggTouches_correct demoTasks demoHuman ("006X".data) (by decide)
  exact ⟨h.1, h.2.2.1 (by decide)⟩

/-! ### Enrichment, staleness and ordering: steps 5 and 6 of
get_human_touched_opportunities -/

def STALE_THRESHOLD_DAYS : Nat := 60

/-- An Opportunity record returned by OPEN_OPPS_SOQL.  Only the Id field is
consulted by the touch/staleness logic; the other selected fields ride along
unchanged in the Python dict and are omitted from the embedding. -/
structure Opp where
  Id : List Char
  deriving DecidableEq

/-- An opportunity after step 5: the original record plus the derived fields
_touch_count, _last_touched and _is_stale. -/
structure EnrichedOpp where
  Id : List Char
  touchCount : Nat
  lastTouched : List Char
  isStale : Bool
  deriving DecidableEq

/-- The body of the loop for opp in opps of step 5.  fromiso embeds the
library call datetime.fromisoformat on an already-normalized string,
returning the instant as an integer number of seconds; staleCutoff is the
value now - timedelta(days=STALE_THRESHOLD_DAYS) computed once before the
loop. -/
def enrichOpp (tc : List Char → Nat) (lt : List Char → Option (List Char))
    (fromiso : List Char → Int) (staleCutoff : Int) (o : Opp) : EnrichedOpp :=
  match lt o.Id with
  | some s =>
    ⟨o.Id, tc o.Id, s.take 10, decide (fromiso (normTs s) < staleCutoff)⟩
  | none => ⟨o.Id, tc o.Id, "Never".data, true⟩

theorem enrichOpp_Id (tc : List Char → Nat) (lt : List Char → Option (List Char))
    (fromiso : List Char → Int) (c : Int) (o : Opp) :
    (enrichOpp tc lt fromiso c o).Id = o.Id := by
  cases h : lt o.Id <;> simp [enrichOpp, h]

/-- The ascending order on the Python sort key
(not o.isStale, -o.touchCount) used in step 6. -/
def keyLe (a b : EnrichedOpp) : Bool :=
  decide ((if a.isStale then (0 : Nat) else 1) <
      (if b.isStale then (0 : Nat) else 1)) ||
    (decide ((if a.isStale then (0 : Nat) else 1) =
        (if b.isStale then (0 : Nat) else 1)) &&
      decide (b.touchCount ≤ a.touchCount))

/-- Insertion into a sorted list, placing the new element before the first
element it is less-or-equal to; together with stableSort this is the stable
ascending sort, extensionally equal to the stable Python list.sort. -/
def insertSorted (le : α → α → Bool) (x : α) : List α → List α
  | [] => [x]
  | y :: ys => if le x y then x :: y :: ys else y :: insertSorted le x ys

/-- Stable ascending sort (insertion sort).  Python list.sort(key=...) is a
stable ascending sort by key; the output of a stable sort is uniquely
determined by the order and the input, so this embedding is extensionally
the sort of step 6. -/
def stableSort (le : α → α → Bool) : List α → List α
  | [] => []
  | x :: xs => insertSorted le x (stableSort le xs)

theorem insertSorted_perm (le : α → α → Bool) (x : α) :
    ∀ l : List α, (insertSorted le x l).Perm (x :: l) := by
  intro l
  induction l with
  | nil => exact List.Perm.refl _
  | cons y ys ih =>
    cases hxy : le x y with
    | true => simp [insertSorted, hxy]
    | false =>
      simp only [insertSorted, hxy, Bool.false_eq_true, if_false]
      exact (ih.cons y).trans (List.Perm.swap x y ys)

theorem stableSort_perm (le : α → α → Bool) :
    ∀ l : List α, (stableSort le l).Perm l := by
  intro l
  induction l with
  | nil => exact List.Perm.refl _
  | cons x xs ih =>
    exact (insertSorted_perm le x (stableSort le xs)).trans (ih.cons x)

theorem pairwise_insertSorted (le : α → α → Bool)
    (htot : ∀ a b, le a b = false → le b a = true)
    (htrans : ∀ a b c, le a b = true → le b c = true → le a c = true)
    (x : α) :
    ∀ l, l.Pairwise (fun a b => le a b = true) →
      (insertSorted le x l).Pairwise (fun a b => le a b = true) := by
  intro l
  induction l with
  | nil => intro _; simp [insertSorted]
  | cons y ys ih =>
    intro hp
    obtain ⟨hy, hys⟩ := List.pairwise_cons.1 hp
    cases hxy : le x y with
    | true =>
      simp only [insertSorted, hxy, if_true]
      refine List.pairwise_cons.2 ⟨?_, hp⟩
      intro b hb
      rcases List.mem_cons.1 hb with rfl | hb
      · exact hxy
      · exact htrans x y b hxy (hy b hb)
    | false =>
      simp only [insertSorted, hxy, Bool.false_eq_true, if_false]
      refine List.pairwise_cons.2 ⟨?_, ih hys⟩
      intro b hb
      have hb2 : b = x ∨ b ∈ ys := by
        simpa using (insertSorted_perm le x ys).mem_iff.1 hb
      rcases hb2 with hbx | hb2
      · rw [hbx]
        exact htot x y hxy
      · exact hy b hb2

theorem pairwise_stableSort (le : α → α → Bool)
    (htot : ∀ a b, le a b = false → le b a = true)
    (htrans : ∀ a b c, le a b = true → le b c = true → le a c = true) :
    ∀ l : List α,
      (stableSort le l).Pairwise (fun a b => le a b = true) := by
  intro l
  induction l with
  | nil => simp [stableSort]
  | cons x xs ih => exact pairwise_insertSorted le htot htrans x _ ih

theorem filter_insertSorted_pos (le : α → α → Bool) (p : α → Bool) (x : α)
    (hx : p x = true) (hkey : ∀ y, p y = true → le x y = true) :
    ∀ l, (insertSorted le x l).filter p = x :: l.filter p := by
  intro l
  induction l with
  | nil => simp [insertSorted, hx]
  | cons y ys ih =>
    cases hxy : le x y with
    | true => simp [insertSorted, hxy, List.filter_cons, hx]
    | false =>
      have hy : p y = false := by
        cases hpy : p y
        · rfl
        · exact absurd (hkey y hpy) (by simp [hxy])
      simp [insertSorted, hxy, List.filter_cons, hy, ih]

theorem filter_insertSorted_neg (le : α → α → Bool) (p : α → Bool) (x : α)
    (hx : p x = false) :
    ∀ l, (insertSorted le x l).filter p = l.filter p := by
  intro l
  induction l with
  | nil => simp [insertSorted, hx]
  | cons y ys ih =>
    cases hxy : le x y with
    | true => simp [insertSorted, hxy, List.filter_cons, hx]
    | false => simp [insertSorted, hxy, List.filter_cons, ih]

theorem stableSort_filter (le : α → α → Bool) (p : α → Bool)
    (hkey : ∀ x y, p x = true → p y = true → le x y = true) :
    ∀ l, (stableSort le l).filter p = l.filter p := by
  intro l
  induction l with
  | nil => rfl
  | cons x xs ih =>
    show (insertSorted le x (stableSort le xs)).filter p = _
    cases hx : p x with
    | true =>
      rw [filter_insertSorted_pos le p x hx (fun y hy => hkey x y hx hy), ih]
      simp [List.filter_cons, hx]
    | false =>
      rw [filter_insertSorted_neg le p x hx, ih]
      simp [List.filter_cons, hx]

theorem keyLe_total (a b : EnrichedOpp) :
    keyLe a b = false → keyLe b a = true := by
  intro h
  unfold keyLe at h ⊢
  cases ha : a.isStale <;> cases hb : b.isStale <;>
    simp [ha, hb] at h ⊢ <;> omega

theorem keyLe_trans (a b c : EnrichedOpp) :
    keyLe a b = true → keyLe b c = true → keyLe a c = true := by
  intro h1 h2
  unfold keyLe at h1 h2 ⊢
  cases ha : a.isStale <;> cases hb : b.isStale <;> cases hc : c.isStale <;>
    simp [ha, hb, hc] at h1 h2 ⊢ <;> omega

theorem keyLe_interp (a b : EnrichedOpp) (h : keyLe a b = true) :
    (a.isStale = false → b.isStale = false) ∧
      (a.isStale = b.isStale → b.touchCount ≤ a.touchCount) := by
  unfold keyLe at h
  cases ha : a.isStale <;> cases hb : b.isStale <;>
    simp [ha, hb] at h ⊢ <;> omega

theorem keyLe_of_same_key (a b : EnrichedOpp) (h1 : a.isStale = b.isStale)
    (h2 : a.touchCount = b.touchCount) : keyLe a b = true := by
  unfold keyLe
  simp [h1, h2]

theorem aggTouches_count_zero_iff (tasks : List SfTask)
    (human : List Char → Bool) (oppId : List Char) :
    (aggTouches tasks human).1 oppId = 0 ↔
      (aggTouches tasks human).2 oppId = none := by
  have hcount := foldl_touch_count human oppId tasks
    ((fun _ => 0), (fun _ => none))
  have hlast := foldl_last_touch human oppId tasks
    ((fun _ => 0), (fun _ => none))
  rw [aggTouches, hcount, hlast]
  simp only [Nat.zero_add]
  constructor
  · intro h
    have hnil : humanTasksFor tasks human oppId = [] :=
      List.length_eq_zero.1 h
    rw [hnil]
    rfl
  · intro h
    cases hq : humanTasksFor tasks human oppId with
    | nil => simp [hq]
    | cons t ts =>
      rw [hq, List.map_cons] at h
      obtain ⟨m, hm⟩ := optMaxTs_isSome (ts.map SfTask.CreatedDate)
        t.CreatedDate
      rw [show optMaxTs none (t.CreatedDate :: ts.map SfTask.CreatedDate) =
        optMaxTs (some t.CreatedDate) (ts.map SfTask.CreatedDate) from rfl,
        hm] at h
      cases h

/-- Claim C6: with the run-wide cutoff now - STALE_THRESHOLD_DAYS days
computed once (step 5 computes stale_cutoff a single time before the loop),
an enriched record is stale exactly when it has zero qualifying touches or
its most recent qualifying touch parses to an instant strictly before the
cutoff; in particular a record whose most recent touch is at or after the
cutoff is never stale. -/
theorem staleness_policy (tasks : List SfTask) (human : List Char → Bool)
    (fromiso : List Char → Int) (now : Int) (o : Opp) :
    ((enrichOpp (aggTouches tasks human).1 (aggTouches tasks human).2 fromiso
        (now - (STALE_THRESHOLD_DAYS : Int) * 86400) o).isStale = true ↔
      ((aggTouches tasks human).1 o.Id = 0 ∨
        ∃ s, (aggTouches tasks human).2 o.Id = some s ∧
          fromiso (normTs s) < now - (STALE_THRESHOLD_DAYS : Int) * 86400)) ∧
    ((aggTouches tasks human).1 o.Id = 0 ↔
      (aggTouches tasks human).2 o.Id = none) := by
  refine ⟨?_, aggTouches_count_zero_iff tasks human o.Id⟩
  cases hl : (aggTouches tasks human).2 o.Id with
  | none =>
    have hz : (aggTouches tasks human).1 o.Id = 0 :=
      (aggTouches_count_zero_iff tasks human o.Id).2 hl
    simp [enrichOpp, hl, hz]
  | some s =>
    have hnz : ¬((aggTouches tasks human).1 o.Id = 0) := by
      intro h
      rw [(aggTouches_count_zero_iff tasks human o.Id).1 h] at hl
      cases hl
    simp [enrichOpp, hl, hnz]

/-- Witness for C6: in the demo data the touched opportunity is not stale
for a recent cutoff, and an untouched opportunity is stale. -/
theorem staleness_policy_witness :
    ((enrichOpp (aggTouches demoTasks demoHuman).1
        (aggTouches demoTasks demoHuman).2 (fun _ => 100)
        ((0 : Int) - (STALE_THRESHOLD_DAYS : Int) * 86400)
        ⟨"006Y".data⟩).isStale = true ↔
      ((aggTouches demoTasks demoHuman).1 ("006Y".data) = 0 ∨
        ∃ s, (aggTouches demoTasks demoHuman).2 ("006Y".data) = some s ∧
          (100 : Int) < 0 - (STALE_THRESHOLD_DAYS : Int) * 86400)) ∧
    ((aggTouches demoTasks demoHuman).1 ("006Y".data) = 0 ↔
      (aggTouches demoTasks demoHuman).2 ("006Y".data) = none) := by
  have h := staleness_policy demoTasks demoHuman (fun _ => 100) 0
    ⟨"006Y".data⟩
  exact h

/-- Claim C7: the sorted sequence places every stale record before every
non-stale record, orders each staleness group by touch count descending, and
is stable: records agreeing on both key components keep their input order
(their filtered subsequences coincide).  The input of the sort in step 6 is
the enriched list in the order of the opportunity query result. -/
theorem stableSort_keyLe_spec (l : List EnrichedOpp) :
    (stableSort keyLe l).Pairwise (fun a b =>
      (a.isStale = false → b.isStale = false) ∧
        (a.isStale = b.isStale → b.touchCount ≤ a.touchCount)) ∧
    (∀ st n, (stableSort keyLe l).filter
        (fun e => decide (e.isStale = st) && decide (e.touchCount = n)) =
      l.filter
        (fun e => decide (e.isStale = st) && decide (e.touchCount = n))) := by
  constructor
  · exact (pairwise_stableSort keyLe keyLe_total keyLe_trans l).imp
      (fun h => keyLe_interp _ _ h)
  · intro st n
    apply stableSort_filter
    intro x y hx hy
    simp only [Bool.and_eq_true, decide_eq_true_eq] at hx hy
    exact keyLe_of_same_key x y (hx.1.trans hy.1.symm)
      (hx.2.trans hy.2.symm)

/-! ### The pipeline: get_human_touched_opportunities with the remote layer
as an oracle.

Python set iteration order (for the set of task-creating user ids) is
unspecified; it is modelled as first-occurrence order via dedup — only
membership and emptiness of the set are consumed downstream. -/

/-- One remote query issued through sf_client.query, by kind and (for the
batched templates) the identifier batch substituted into the IN clause. -/
inductive QueryCall where
  | opps
  | tasks (batch : List (List Char))
  | users (batch : List (List Char))
  deriving DecidableEq

/-- The remote data source: results of the opportunity query and of each
per-batch Task and User query. -/
structure Oracle where
  openOpps : List Opp
  taskQuery : List (List Char) → List SfTask
  userQuery : List (List Char) → List SfUser

/-- Step 2: all Tasks linked to the fetched opportunities,
_query_batched over the opportunity ids. -/
def pipelineTasks (oracle : Oracle) : List SfTask :=
  ((batchIds (oracle.openOpps.map Opp.Id)).map oracle.taskQuery).flatten

/-- Step 3, first half: the set of user ids that created Tasks. -/
def pipelineUserIds (oracle : Oracle) : List (List Char) :=
  ((pipelineTasks oracle).map SfTask.CreatedById).dedup

/-- The User query batches; empty when no user ids were collected (the
conditional human_ids = ... if all_user_ids else set()). -/
def pipelineUserBatches (oracle : Oracle) : List (List (List Char)) :=
  if pipelineUserIds oracle = [] then []
  else batchIds (pipelineUserIds oracle)

/-- Step 3, second half: the human subset of the task-creating users. -/
def pipelineHumanIds (oracle : Oracle) : List (List Char) :=
  if pipelineUserIds oracle = [] then []
  else getHumanUserIds (((pipelineUserBatches oracle).map
    oracle.userQuery).flatten)

/-- Step 5: every fetched opportunity enriched with touch data, in query
order, with the staleness cutoff computed once from a single now. -/
def pipelineEnriched (oracle : Oracle) (fromiso : List Char → Int)
    (now : Int) : List EnrichedOpp :=
  oracle.openOpps.map
    (enrichOpp
      (aggTouches (pipelineTasks oracle)
        (fun cid => decide (cid ∈ pipelineHumanIds oracle))).1
      (aggTouches (pipelineTasks oracle)
        (fun cid => decide (cid ∈ pipelineHumanIds oracle))).2
      fromiso (now - (STALE_THRESHOLD_DAYS : Int) * 86400))

/-- opportunities.get_human_touched_opportunities: the returned enriched,
sorted opportunity list together with the trace of issued remote queries. -/
def getHumanTouchedOpportunities (oracle : Oracle)
    (fromiso : List Char → Int) (now : Int) :
    List EnrichedOpp × List QueryCall :=
  if oracle.openOpps = [] then ([], [QueryCall.opps])
  else
    (stableSort keyLe (pipelineEnriched oracle fromiso now),
     QueryCall.opps ::
       ((batchIds (oracle.openOpps.map Opp.Id)).map QueryCall.tasks ++
         (pipelineUserBatches oracle).map QueryCall.users))

theorem flatten_map_nil {β : Type} (xs : List β) :
    (xs.map (fun _ => ([] : List SfTask))).flatten = [] := by
  induction xs with
  | nil => rfl
  | cons x rest ih => simp

/-- Claim C10: an empty opportunity query result short-circuits the pipeline
with an empty result and no further remote query; and when the task queries
return no tasks, no user id is collected, no User query is issued and the
human set is empty (every enriched record then shows zero touches). -/
theorem pipeline_short_circuit (oracle : Oracle) (fromiso : List Char → Int)
    (now : Int) :
    (oracle.openOpps = [] →
      getHumanTouchedOpportunities oracle fromiso now =
        ([], [QueryCall.opps])) ∧
    ((∀ b, oracle.taskQuery b = []) →
      (getHumanTouchedOpportunities oracle fromiso now).2 =
        QueryCall.opps ::
          (batchIds (oracle.openOpps.map Opp.Id)).map QueryCall.tasks ∧
      pipelineHumanIds oracle = [] ∧
      ∀ e ∈ (getHumanTouchedOpportunities oracle fromiso now).1,
        e.touchCount = 0 ∧ e.lastTouched = "Never".data ∧
          e.isStale = true) := by
  constructor
  · intro h
    simp [getHumanTouchedOpportunities, h]
  · intro htq
    have htasks : pipelineTasks oracle = [] := by
      rw [pipelineTasks]
      have : (batchIds (oracle.openOpps.map Opp.Id)).map oracle.taskQuery =
          (batchIds (oracle.openOpps.map Opp.Id)).map
            (fun _ => ([] : List SfTask)) :=
        List.map_congr_left (fun b _ => htq b)
      rw [this]
      exact flatten_map_nil _
    have huser : pipelineUserIds oracle = [] := by
      rw [pipelineUserIds, htasks]
      rfl
    have hbatches : pipelineUserBatches oracle = [] := by
      rw [pipelineUserBatches, if_pos huser]
    have hhuman : pipelineHumanIds oracle = [] := by
      rw [pipelineHumanIds, if_pos huser]
    refine ⟨?_, hhuman, ?_⟩
    · by_cases hopps : oracle.openOpps = []
      · simp [getHumanTouchedOpportunities, hopps, batchIds_nil]
      · simp [getHumanTouchedOpportunities, hopps, hbatches]
    · intro e he
      by_cases hopps : oracle.openOpps = []
      · simp [getHumanTouchedOpportunities, hopps] at he
      · simp only [getHumanTouchedOpportunities, hopps, if_neg] at he
        have he2 : e ∈ pipelineEnriched oracle fromiso now :=
          (stableSort_perm keyLe _).mem_iff.1 (by simpa using he)
        obtain ⟨o, _, rfl⟩ := List.mem_map.1 he2
        rw [htasks]
        exact ⟨rfl, rfl, rfl⟩

/-- Witness for C10 at a concrete oracle with one opportunity and no
tasks. -/
theorem pipeline_short_circuit_witness :
    (getHumanTouchedOpportunities ⟨[], fun _ => [], fun _ => []⟩
        (fun _ => 0) 0 = ([], [QueryCall.opps])) ∧
    ((getHumanTouchedOpportunities ⟨[⟨"006X".data⟩], fun _ => [],
        fun _ => []⟩ (fun _ => 0) 0).2 =
      QueryCall.opps ::
        (batchIds (([⟨"006X".data⟩] : List Opp).map Opp.Id)).map
          QueryCall.tasks ∧
      pipelineHumanIds ⟨[⟨"006X".data⟩], fun _ => [], fun _ => []⟩ = [] ∧
      ∀ e ∈ (getHumanTouchedOpportunities ⟨[⟨"006X".data⟩], fun _ => [],
          fun _ => []⟩ (fun _ => 0) 0).1,
        e.touchCount = 0 ∧ e.lastTouched = "Never".data ∧
          e.isStale = true) :=
  ⟨(pipeline_short_circuit ⟨[], fun _ => [], fun _ => []⟩
      (fun _ => 0) 0).1 rfl,
   (pipeline_short_circuit ⟨[⟨"006X".data⟩], fun _ => [], fun _ => []⟩
      (fun _ => 0) 0).2 (fun _ => rfl)⟩

theorem enrichOpp_touchCount (tc : List Char → Nat)
    (lt : List Char → Option (List Char)) (fromiso : List Char → Int)
    (c : Int) (o : Opp) :
    (enrichOpp tc lt fromiso c o).touchCount = tc o.Id := by
  cases h : lt o.Id <;> simp [enrichOpp, h]

/-- Claim C8: the enriched output has an entry for every fetched record,
and every output record satisfies the TouchStats invariant: the count is a
natural number, and a zero count forces the last-touch marker Never and the
staleness flag. -/
theorem pipeline_complete (oracle : Oracle) (fromiso : List Char → Int)
    (now : Int) :
    (∀ o ∈ oracle.openOpps,
      ∃ e ∈ (getHumanTouchedOpportunities oracle fromiso now).1,
        e.Id = o.Id) ∧
    (∀ e ∈ (getHumanTouchedOpportunities oracle fromiso now).1,
      0 ≤ e.touchCount ∧
        (e.touchCount = 0 → e.lastTouched = "Never".data ∧
          e.isStale = true)) := by
  by_cases hopps : oracle.openOpps = []
  · constructor
    · intro o ho
      rw [hopps] at ho
      cases ho
    · intro e he
      simp [getHumanTouchedOpportunities, hopps] at he
  · constructor
    · intro o ho
      simp only [getHumanTouchedOpportunities, if_neg hopps]
      refine ⟨enrichOpp
        (aggTouches (pipelineTasks oracle)
          (fun cid => decide (cid ∈ pipelineHumanIds oracle))).1
        (aggTouches (pipelineTasks oracle)
          (fun cid => decide (cid ∈ pipelineHumanIds oracle))).2
        fromiso (now - (STALE_THRESHOLD_DAYS : Int) * 86400) o, ?_, ?_⟩
      · exact (stableSort_perm keyLe _).mem_iff.2
          (List.mem_map.2 ⟨o, ho, rfl⟩)
      · exact enrichOpp_Id _ _ _ _ o
    · intro e he
      simp only [getHumanTouchedOpportunities, if_neg hopps] at he
      have he2 : e ∈ pipelineEnriched oracle fromiso now :=
        (stableSort_perm keyLe _).mem_iff.1 (by simpa using he)
      obtain ⟨o, _, rfl⟩ := List.mem_map.1 he2
      refine ⟨Nat.zero_le _, ?_⟩
      intro hz
      rw [enrichOpp_touchCount] at hz
      have hnone := (aggTouches_count_zero_iff _ _ o.Id).1 hz
      simp [enrichOpp, hnone]

/-- A one-opportunity oracle whose task and user queries return nothing. -/
def demoOracle : Oracle := ⟨[⟨"006X".data⟩], fun _ => [], fun _ => []⟩

/-- Witness for C8 at the demo oracle. -/
theorem pipeline_complete_witness :
    ∃ e ∈ (getHumanTouchedOpportunities demoOracle (fun _ => 0) 0).1,
      e.Id = "006X".data := by
  have h := (pipeline_complete demoOracle (fun _ => 0) 0).1
    ⟨"006X".data⟩ (by simp [demoOracle])
  simpa using h

/-- Counterexample to claim C9: get_human_touched_opportunities applies no
minimum-touch-count filter.  With one fetched opportunity and no tasks at
all, the returned sequence contains a record with zero human touches, so it
is false that every returned record has at least 2 human touches (the
message printed by main.py does not correspond to any filtering). -/
theorem no_min_touch_filter_counterexample :
    ¬(∀ e ∈ (getHumanTouchedOpportunities demoOracle (fun _ => 0) 0).1,
        2 ≤ e.touchCount) := by decide

/-- Claim C9 as amended: the final sequence contains every fetched
opportunity exactly once, regardless of its touch count — no minTouches
threshold is applied anywhere in the pipeline. -/
theorem pipeline_returns_all_fetched (oracle : Oracle)
    (fromiso : List Char → Int) (now : Int) :
    ((getHumanTouchedOpportunities oracle fromiso now).1.map
        EnrichedOpp.Id).Perm
      (oracle.openOpps.map Opp.Id) := by
  by_cases hopps : oracle.openOpps = []
  · simp [getHumanTouchedOpportunities, hopps]
  · simp only [getHumanTouchedOpportunities, if_neg hopps]
    refine ((stableSort_perm keyLe _).map EnrichedOpp.Id).trans ?_
    rw [pipelineEnriched, List.map_map]
    have heq : oracle.openOpps.map (EnrichedOpp.Id ∘
        enrichOpp
          (aggTouches (pipelineTasks oracle)
            (fun cid => decide (cid ∈ pipelineHumanIds oracle))).1
          (aggTouches (pipelineTasks oracle)
            (fun cid => decide (cid ∈ pipelineHumanIds oracle))).2
          fromiso (now - (STALE_THRESHOLD_DAYS : Int) * 86400)) =
        oracle.openOpps.map Opp.Id :=
      List.map_congr_left (fun o _ => enrichOpp_Id _ _ _ _ o)
    rw [heq]

end SFReport
